import Mathlib

/-!
Verification development for the batch-processing utilities of
`mimmers-core-nodejs` (`src/types/pagination.ts`, `src/utils/arrayUtils.ts`).

The TypeScript source is shallowly embedded:

* A settled JavaScript promise is modelled by `AsyncResult E R`: the value it
  settles with (`Except E R`, `error` = rejection) together with the time at
  which it settles (`time : Nat`).  Quantifying theorems over all `time`
  assignments captures "regardless of completion order".
* `Promise.all` is modelled by `promiseAll`: it rejects with the earliest
  rejection (ties broken by array position, matching the event loop for
  promises settling at the same instant), otherwise it fulfils with the list
  of values in array order.
* JavaScript `for` loops over an index are translated to structural recursion
  on the list being traversed, with an explicit fuel argument (set to the list
  length by the wrapper) so that every definition is a computable structural
  recursion.  For the precondition-violation analysis (chunkSize or
  maxConcurrency below 1, where the JavaScript loops do not terminate) a
  second, literal translation of the loops is given (`chunkArrayLoopJS`,
  `wavesLoopJS`) with `Int` indices, JavaScript `slice` semantics and a fuel
  counter whose exhaustion is reported as `none`.
* JavaScript numbers are modelled by `Nat`/`Int` where the code only ever
  computes with integers, and by `ℚ` for the zod schema bounds (the claims
  involve no rounding of IEEE floats; `NaN` is outside the model).
-/

/-- A settled promise: the instant it settles and the value it settles with
(`Except.error` models rejection).  Models the promises produced by the
caller-supplied `processChunk` / `readPage` functions in `pagination.ts`. -/
structure AsyncResult (E R : Type) where
  time : Nat
  val : Except E R

/-- The earliest rejection (settle time and reason) among a list of settled
promises, ties broken by array position.  This is the rejection `Promise.all`
reports. -/
def firstRejection {E R : Type} : List (AsyncResult E R) → Option (Nat × E)
  | [] => none
  | q :: qs =>
    match q.val, firstRejection qs with
    | .error e, none => some (q.time, e)
    | .error e, some (t, e') => if q.time ≤ t then some (q.time, e) else some (t, e')
    | .ok _, r => r

/-- Model of `Promise.all`: rejects with the earliest rejection among its
arguments; if none rejects, fulfils with the list of fulfilled values in array
order (never completion order). -/
def promiseAll {E R : Type} (ps : List (AsyncResult E R)) : Except E (List R) :=
  match firstRejection ps with
  | some pr => .error pr.2
  | none => .ok (ps.filterMap fun q => q.val.toOption)

/-- Body of the chunking loop of `chunkArray` (`pagination.ts`, lines 21-27):
each iteration takes the next `chunkSize` elements.  `fuel` bounds the number
of iterations; the wrapper `chunkArray` passes the array length, which is
enough fuel whenever `chunkSize ≥ 1`. -/
def chunkArrayGo {T : Type} (chunkSize : Nat) : Nat → List T → List (List T)
  | 0, _ => []
  | _ + 1, [] => []
  | fuel + 1, a :: rest =>
    ((a :: rest).take chunkSize) :: chunkArrayGo chunkSize fuel ((a :: rest).drop chunkSize)

/-- `chunkArray(array, chunkSize)` from `pagination.ts`: splits `array` into
consecutive chunks of `chunkSize` elements, the last possibly shorter. -/
def chunkArray {T : Type} (array : List T) (chunkSize : Nat) : List (List T) :=
  chunkArrayGo chunkSize array.length array

/-- Body of the wave loop of `processChunksInParallel` (`pagination.ts`,
lines 47-52): take the next `maxConcurrency` chunks as a batch, `await
Promise.all` over it (rethrowing a rejection), and append the batch results in
batch order.  `fuel` bounds the number of waves; the wrapper passes the number
of chunks, enough whenever `maxConcurrency ≥ 1`. -/
def chunksGo {T E R : Type} (processChunk : List T → AsyncResult E R) (maxConcurrency : Nat) :
    Nat → List (List T) → Except E (List R)
  | 0, _ => .ok []
  | _ + 1, [] => .ok []
  | fuel + 1, c :: rest =>
    match promiseAll (((c :: rest).take maxConcurrency).map processChunk) with
    | .error e => .error e
    | .ok batchResults =>
      match chunksGo processChunk maxConcurrency fuel ((c :: rest).drop maxConcurrency) with
      | .error e => .error e
      | .ok restResults => .ok (batchResults ++ restResults)

/-- `processChunksInParallel(items, chunkSize, processChunk, maxConcurrency)`
from `pagination.ts`: chunk the items, then process the chunks in waves of at
most `maxConcurrency`, collecting the results in chunk order. -/
def processChunksInParallel {T E R : Type} (items : List T) (chunkSize : Nat)
    (processChunk : List T → AsyncResult E R) (maxConcurrency : Nat) : Except E (List R) :=
  chunksGo processChunk maxConcurrency (chunkArray items chunkSize).length
    (chunkArray items chunkSize)

/-- `processChunksInParallelWithSum` from `pagination.ts`: run
`processChunksInParallel` and sum the per-chunk numbers with
`results.reduce((total, result) => total + result, 0)`. -/
def processChunksInParallelWithSum {T E : Type} (items : List T) (chunkSize : Nat)
    (processChunk : List T → AsyncResult E Int) (maxConcurrency : Nat) : Except E Int :=
  (processChunksInParallel items chunkSize processChunk maxConcurrency).map fun results =>
    results.foldl (· + ·) 0

section PromiseAllLemmas

variable {E R A : Type}

theorem firstRejection_map_ok (t : A → Nat) (f : A → R) :
    ∀ l : List A, firstRejection (E := E) (l.map fun a => ⟨t a, .ok (f a)⟩) = none := by
  intro l
  induction l with
  | nil => rfl
  | cons a l ih => simpa [firstRejection] using ih

theorem filterMap_toOption_map_ok (t : A → Nat) (f : A → R) :
    ∀ l : List A,
      ((l.map fun a => (⟨t a, .ok (f a)⟩ : AsyncResult E R)).filterMap fun q => q.val.toOption) =
        l.map f := by
  intro l
  induction l with
  | nil => rfl
  | cons a l ih => simpa [Except.toOption] using ih

/-- `Promise.all` over promises that all fulfil, fulfils with the values in
array order. -/
theorem promiseAll_map_ok (t : A → Nat) (f : A → R) (l : List A) :
    promiseAll (E := E) (l.map fun a => ⟨t a, .ok (f a)⟩) = .ok (l.map f) := by
  unfold promiseAll
  rw [firstRejection_map_ok, filterMap_toOption_map_ok]

theorem firstRejection_mem : ∀ {ps : List (AsyncResult E R)} {t : Nat} {e : E},
    firstRejection ps = some (t, e) → ∃ q ∈ ps, q.val = .error e := by
  intro ps
  induction ps with
  | nil => intro t e h; simp [firstRejection] at h
  | cons q qs ih =>
    intro t e h
    rcases hv : q.val with e' | r'
    · rcases hr : firstRejection qs with - | ⟨t', e''⟩
      · simp only [firstRejection, hv, hr, Option.some.injEq, Prod.mk.injEq] at h
        obtain ⟨-, rfl⟩ := h
        exact ⟨q, List.mem_cons_self _ _, hv⟩
      · simp only [firstRejection, hv, hr] at h
        split_ifs at h
        · simp only [Option.some.injEq, Prod.mk.injEq] at h
          obtain ⟨-, rfl⟩ := h
          exact ⟨q, List.mem_cons_self _ _, hv⟩
        · simp only [Option.some.injEq, Prod.mk.injEq] at h
          obtain ⟨rfl, rfl⟩ := h
          obtain ⟨q', hq', hval⟩ := ih hr
          exact ⟨q', List.mem_cons_of_mem _ hq', hval⟩
    · simp only [firstRejection, hv] at h
      obtain ⟨q', hq', hval⟩ := ih h
      exact ⟨q', List.mem_cons_of_mem _ hq', hval⟩

theorem firstRejection_ne_none : ∀ {ps : List (AsyncResult E R)} {q : AsyncResult E R} {e : E},
    q ∈ ps → q.val = .error e → firstRejection ps ≠ none := by
  intro ps
  induction ps with
  | nil => intro q e h; simp at h
  | cons p qs ih =>
    intro q e hmem hval
    rcases List.mem_cons.mp hmem with rfl | hmem'
    · simp only [firstRejection, hval]
      rcases firstRejection qs with - | ⟨t', e''⟩
      · simp
      · by_cases hle : q.time ≤ t' <;> simp [hle]
    · rcases hv : p.val with e' | r'
      · simp only [firstRejection, hv]
        rcases firstRejection qs with - | ⟨t', e''⟩
        · simp
        · by_cases hle : p.time ≤ t' <;> simp [hle]
      · simp only [firstRejection, hv]
        exact ih hmem' hval

/-- If some promise in the list rejects, `Promise.all` rejects, and its
rejection reason is the reason of one of the rejecting promises. -/
theorem promiseAll_error {ps : List (AsyncResult E R)}
    (h : ∃ q ∈ ps, ∃ e, q.val = .error e) :
    ∃ q ∈ ps, ∃ e, q.val = .error e ∧ promiseAll ps = .error e := by
  obtain ⟨q, hq, e, hval⟩ := h
  unfold promiseAll
  rcases hr : firstRejection ps with - | ⟨t, e'⟩
  · exact absurd hr (firstRejection_ne_none hq hval)
  · obtain ⟨q', hq', hval'⟩ := firstRejection_mem hr
    exact ⟨q', hq', e', hval', rfl⟩

/-- If no promise in the list rejects, `Promise.all` fulfils. -/
theorem promiseAll_ok_of_no_error {ps : List (AsyncResult E R)}
    (h : ∀ q ∈ ps, ∀ e, q.val ≠ .error e) :
    ∃ rs, promiseAll ps = .ok rs := by
  unfold promiseAll
  rcases hr : firstRejection ps with - | ⟨t, e⟩
  · exact ⟨_, rfl⟩
  · obtain ⟨q, hq, hval⟩ := firstRejection_mem hr
    exact absurd hval (h q hq e)

end PromiseAllLemmas

section SchedulerLemmas

variable {T E R : Type}

/-- When every chunk's promise fulfils, the wave loop collects the per-chunk
values in chunk order, whatever the settle times are. -/
theorem chunksGo_map_ok (t : List T → Nat) (f : List T → R) (mc : Nat) (hmc : 1 ≤ mc) :
    ∀ fuel (l : List (List T)), l.length ≤ fuel →
      chunksGo (E := E) (fun c => ⟨t c, .ok (f c)⟩) mc fuel l = .ok (l.map f) := by
  intro fuel
  induction fuel with
  | zero =>
    intro l hl
    rw [Nat.le_zero, List.length_eq_zero] at hl
    subst hl
    rfl
  | succ fuel ih =>
    intro l hl
    match l with
    | [] => rfl
    | c :: rest =>
      simp only [List.length_cons] at hl
      have hdrop : ((c :: rest).drop mc).length ≤ fuel := by
        simp only [List.length_drop, List.length_cons]
        omega
      simp only [chunksGo, promiseAll_map_ok, ih ((c :: rest).drop mc) hdrop]
      rw [← List.map_append, List.take_append_drop]

/-- If some chunk's promise rejects, the wave loop rejects with the reason of
one of the rejecting chunks, and returns no result list. -/
theorem chunksGo_error (p : List T → AsyncResult E R) (mc : Nat) (hmc : 1 ≤ mc) :
    ∀ fuel (l : List (List T)), l.length ≤ fuel →
      (∃ c ∈ l, ∃ e, (p c).val = .error e) →
      ∃ c ∈ l, ∃ e, (p c).val = .error e ∧ chunksGo p mc fuel l = .error e := by
  intro fuel
  induction fuel with
  | zero =>
    intro l hl hfail
    rw [Nat.le_zero, List.length_eq_zero] at hl
    subst hl
    obtain ⟨c, hc, -⟩ := hfail
    simp at hc
  | succ fuel ih =>
    intro l hl hfail
    match l with
    | [] =>
      obtain ⟨c, hc, -⟩ := hfail
      simp at hc
    | c :: rest =>
      simp only [List.length_cons] at hl
      by_cases hbatch : ∃ c' ∈ (c :: rest).take mc, ∃ e, (p c').val = .error e
      · have hq : ∃ q ∈ ((c :: rest).take mc).map p, ∃ e, q.val = .error e := by
          obtain ⟨c', hc', e, he⟩ := hbatch
          exact ⟨p c', List.mem_map_of_mem p hc', e, he⟩
        obtain ⟨q, hq', e, hval, hpa⟩ := promiseAll_error hq
        obtain ⟨c'', hc'', rfl⟩ := List.mem_map.mp hq'
        refine ⟨c'', List.mem_of_mem_take hc'', e, hval, ?_⟩
        simp only [chunksGo, hpa]
      · push_neg at hbatch
        have hnoerr : ∀ q ∈ ((c :: rest).take mc).map p, ∀ e, q.val ≠ .error e := by
          intro q hq e
          obtain ⟨c', hc', rfl⟩ := List.mem_map.mp hq
          exact hbatch c' hc' e
        obtain ⟨rs, hrs⟩ := promiseAll_ok_of_no_error hnoerr
        obtain ⟨c0, hc0, e0, he0⟩ := hfail
        have hc0drop : c0 ∈ (c :: rest).drop mc := by
          rw [← List.take_append_drop mc (c :: rest)] at hc0
          rcases List.mem_append.mp hc0 with htk | hdr
          · exact absurd he0 (hbatch c0 htk e0)
          · exact hdr
        have hdroplen : ((c :: rest).drop mc).length ≤ fuel := by
          simp only [List.length_drop, List.length_cons]
          omega
        obtain ⟨c1, hc1, e1, he1, hgo⟩ :=
          ih ((c :: rest).drop mc) hdroplen ⟨c0, hc0drop, e0, he0⟩
        exact ⟨c1, List.mem_of_mem_drop hc1, e1, he1, by simp only [chunksGo, hrs, hgo]⟩

end SchedulerLemmas

section ChunkArrayLemmas

variable {T : Type}

theorem chunkArrayGo_flatten (cs : Nat) (hcs : 1 ≤ cs) :
    ∀ fuel (l : List T), l.length ≤ fuel → (chunkArrayGo cs fuel l).flatten = l := by
  intro fuel
  induction fuel with
  | zero =>
    intro l hl
    rw [Nat.le_zero, List.length_eq_zero] at hl
    subst hl
    rfl
  | succ fuel ih =>
    intro l hl
    match l with
    | [] => rfl
    | a :: rest =>
      simp only [List.length_cons] at hl
      have hdrop : ((a :: rest).drop cs).length ≤ fuel := by
        simp only [List.length_drop, List.length_cons]
        omega
      simp only [chunkArrayGo, List.flatten_cons, ih ((a :: rest).drop cs) hdrop,
        List.take_append_drop]

theorem chunkArrayGo_ne_nil (cs : Nat) (fuel : Nat) (a : T) (rest : List T) :
    chunkArrayGo cs (fuel + 1) (a :: rest) ≠ [] := by
  simp [chunkArrayGo]

theorem chunkArrayGo_getElem (cs : Nat) (hcs : 1 ≤ cs) :
    ∀ fuel (l : List T), l.length ≤ fuel →
      ∀ i (hi : i < (chunkArrayGo cs fuel l).length),
        (chunkArrayGo cs fuel l)[i] = (l.drop (i * cs)).take cs := by
  intro fuel
  induction fuel with
  | zero =>
    intro l hl i hi
    rw [Nat.le_zero, List.length_eq_zero] at hl
    subst hl
    simp [chunkArrayGo] at hi
  | succ fuel ih =>
    intro l hl i hi
    match l with
    | [] => simp [chunkArrayGo] at hi
    | a :: rest =>
      simp only [List.length_cons] at hl
      have hdrop : ((a :: rest).drop cs).length ≤ fuel := by
        simp only [List.length_drop, List.length_cons]
        omega
      match i with
      | 0 => simp [chunkArrayGo]
      | i + 1 =>
        simp only [chunkArrayGo] at hi ⊢
        rw [List.getElem_cons_succ]
        rw [ih ((a :: rest).drop cs) hdrop i (by simpa using hi)]
        rw [List.drop_drop]
        congr 2
        ring

/-- Every chunk except possibly the last has length exactly `cs`. -/
theorem chunkArrayGo_dropLast_length (cs : Nat) (hcs : 1 ≤ cs) :
    ∀ fuel (l : List T), l.length ≤ fuel →
      ∀ c ∈ (chunkArrayGo cs fuel l).dropLast, c.length = cs := by
  intro fuel
  induction fuel with
  | zero =>
    intro l hl c hc
    rw [Nat.le_zero, List.length_eq_zero] at hl
    subst hl
    simp [chunkArrayGo] at hc
  | succ fuel ih =>
    intro l hl c hc
    match l with
    | [] => simp [chunkArrayGo] at hc
    | a :: rest =>
      simp only [List.length_cons] at hl
      have hdrop : ((a :: rest).drop cs).length ≤ fuel := by
        simp only [List.length_drop, List.length_cons]
        omega
      simp only [chunkArrayGo] at hc
      rcases hrest : chunkArrayGo cs fuel ((a :: rest).drop cs) with - | ⟨c', cs'⟩
      · rw [hrest] at hc
        simp at hc
      · rw [hrest] at hc
        rw [List.dropLast_cons_of_ne_nil (by simp)] at hc
        rcases List.mem_cons.mp hc with rfl | hc'
        · -- the head chunk is followed by another chunk, so the input has
          -- more than `cs` elements and the head chunk is full
          have hlong : cs < (a :: rest).length := by
            by_contra hshort
            push_neg at hshort
            have : (a :: rest).drop cs = [] := List.drop_eq_nil_of_le hshort
            rw [this] at hrest
            rcases fuel with - | fuel' <;> simp [chunkArrayGo] at hrest
          simp only [List.length_take, List.length_cons] at *
          omega
        · rw [← hrest] at hc'
          exact ih ((a :: rest).drop cs) hdrop c hc'

end ChunkArrayLemmas

/-- `totalPages = Math.ceil(totalCount / pageSize)` from
`processPaginatedInParallel` (`pagination.ts`, line 89), written with the
natural-number ceiling-division formula, which agrees with `Math.ceil` of the
exact division for `pageSize ≥ 1`. -/
def totalPages (totalCount pageSize : Nat) : Nat :=
  (totalCount + pageSize - 1) / pageSize

/-- The argument pairs `(offset, limit)` of the page reads issued by
`processPaginatedInParallel` (`pagination.ts`, lines 99-104), in page order:
`offset = pageIndex * pageSize`, `limit = Math.min(pageSize, totalCount -
offset)`.  The wave loop works through consecutive slices of this list. -/
def pageSpecs (totalCount pageSize : Nat) : List (Nat × Nat) :=
  (List.range (totalPages totalCount pageSize)).map fun p =>
    (p * pageSize, min pageSize (totalCount - p * pageSize))

/-- Body of the wave loop of `processPaginatedInParallel` (`pagination.ts`,
lines 93-113): take the next `maxConcurrency` page specs as a batch, issue
`readPage(offset, limit)` for each, `await Promise.all`, and append the page
results flattened in page order.  `fuel` bounds the number of waves; the
wrapper passes the number of pages, enough whenever `maxConcurrency ≥ 1`. -/
def paginatedGo {T E : Type} (readPage : Nat → Nat → AsyncResult E (List T))
    (maxConcurrency : Nat) : Nat → List (Nat × Nat) → Except E (List T)
  | 0, _ => .ok []
  | _ + 1, [] => .ok []
  | fuel + 1, s :: rest =>
    match promiseAll (((s :: rest).take maxConcurrency).map fun sp => readPage sp.1 sp.2) with
    | .error e => .error e
    | .ok batchResults =>
      match paginatedGo readPage maxConcurrency fuel ((s :: rest).drop maxConcurrency) with
      | .error e => .error e
      | .ok restResults => .ok (batchResults.flatten ++ restResults)

/-- `processPaginatedInParallel(totalCount, pageSize, readPage,
maxConcurrency)` from `pagination.ts`: read all pages in waves of at most
`maxConcurrency`, flattening the page results in page order. -/
def processPaginatedInParallel {T E : Type} (totalCount pageSize : Nat)
    (readPage : Nat → Nat → AsyncResult E (List T)) (maxConcurrency : Nat) :
    Except E (List T) :=
  paginatedGo readPage maxConcurrency (pageSpecs totalCount pageSize).length
    (pageSpecs totalCount pageSize)

/-- `totalPages` is the ceiling of `totalCount / pageSize`: it is large enough
to cover all records, and (when there is at least one record) one page fewer
would not be. -/
theorem totalPages_spec (tc ps : Nat) (hps : 1 ≤ ps) :
    tc ≤ totalPages tc ps * ps ∧ (0 < tc → (totalPages tc ps - 1) * ps < tc) := by
  have h := Nat.div_add_mod (tc + ps - 1) ps
  have hr : (tc + ps - 1) % ps < ps := Nat.mod_lt _ (by omega)
  unfold totalPages
  constructor
  · rw [mul_comm]
    generalize ps * ((tc + ps - 1) / ps) = K at h
    omega
  · intro htc
    rw [Nat.sub_mul, one_mul, mul_comm]
    generalize ps * ((tc + ps - 1) / ps) = K at h
    omega

/-- `totalPages` is exactly `Math.ceil` of the exact division
`totalCount / pageSize`. -/
theorem totalPages_eq_ceil (tc ps : Nat) (hps : 1 ≤ ps) :
    Nat.ceil ((tc : ℚ) / ps) = totalPages tc ps := by
  rcases Nat.eq_zero_or_pos tc with rfl | htc
  · have h0 : totalPages 0 ps = 0 := by
      unfold totalPages
      rw [Nat.zero_add, Nat.div_eq_of_lt (by omega)]
    rw [h0]
    simp
  · obtain ⟨h1, h2⟩ := totalPages_spec tc ps hps
    have hps0 : (0 : ℚ) < ps := by exact_mod_cast Nat.lt_of_lt_of_le Nat.zero_lt_one hps
    have htp0 : totalPages tc ps ≠ 0 := by
      intro h0
      rw [h0, Nat.zero_mul] at h1
      omega
    rw [Nat.ceil_eq_iff htp0]
    constructor
    · rw [lt_div_iff₀ hps0]
      exact_mod_cast h2 htc
    · rw [div_le_iff₀ hps0]
      exact_mod_cast h1

section PaginatedLemmas

variable {T E : Type}

/-- When every page read fulfils, the paginated wave loop returns the page
results flattened in page order, whatever the settle times are. -/
theorem paginatedGo_map_ok (t : Nat → Nat → Nat) (rows : Nat → Nat → List T) (mc : Nat)
    (hmc : 1 ≤ mc) :
    ∀ fuel (specs : List (Nat × Nat)), specs.length ≤ fuel →
      paginatedGo (E := E) (fun o l => ⟨t o l, .ok (rows o l)⟩) mc fuel specs =
        .ok ((specs.map fun sp => rows sp.1 sp.2).flatten) := by
  intro fuel
  induction fuel with
  | zero =>
    intro specs hl
    rw [Nat.le_zero, List.length_eq_zero] at hl
    subst hl
    rfl
  | succ fuel ih =>
    intro specs hl
    match specs with
    | [] => rfl
    | s :: rest =>
      simp only [List.length_cons] at hl
      have hdrop : ((s :: rest).drop mc).length ≤ fuel := by
        simp only [List.length_drop, List.length_cons]
        omega
      have hbatch :
          promiseAll (((s :: rest).take mc).map fun sp : Nat × Nat =>
              (⟨t sp.1 sp.2, .ok (rows sp.1 sp.2)⟩ : AsyncResult E (List T))) =
            .ok (((s :: rest).take mc).map fun sp : Nat × Nat => rows sp.1 sp.2) :=
        promiseAll_map_ok (fun sp : Nat × Nat => t sp.1 sp.2)
          (fun sp : Nat × Nat => rows sp.1 sp.2) ((s :: rest).take mc)
      simp only [paginatedGo, hbatch, ih ((s :: rest).drop mc) hdrop]
      rw [← List.flatten_append, ← List.map_append, List.take_append_drop]

end PaginatedLemmas

/-- One invocation of the `onProgress` callback of
`processPaginatedWithProgress` (`pagination.ts`, line 145): the arguments
`(currentPage, totalPages, recordsProcessed)` it is called with. -/
structure ProgressEvent where
  currentPage : Nat
  totalPages : Nat
  recordsProcessed : Nat
deriving DecidableEq, Repr

/-- Insert an element into a list ordered by settle time, after every element
whose time is not larger (stable insertion). -/
def insertByTime {A : Type} (time : A → Nat) (x : A) : List A → List A
  | [] => [x]
  | y :: ys => if time y ≤ time x then y :: insertByTime time x ys else x :: y :: ys

/-- Stable sort by settle time: the order in which the event loop resumes the
`await readPage(...)` continuations of one wave (earlier settle time first,
array order for promises settling at the same instant). -/
def sortByTime {A : Type} (time : A → Nat) : List A → List A
  | [] => []
  | x :: xs => insertByTime time x (sortByTime time xs)

theorem insertByTime_perm {A : Type} (time : A → Nat) (x : A) :
    ∀ l : List A, (insertByTime time x l).Perm (x :: l) := by
  intro l
  induction l with
  | nil => exact List.Perm.refl _
  | cons y ys ih =>
    by_cases h : time y ≤ time x
    · simp only [insertByTime, if_pos h]
      exact (ih.cons y).trans (List.Perm.swap x y ys)
    · simp only [insertByTime, if_neg h]
      exact List.Perm.refl _

theorem sortByTime_perm {A : Type} (time : A → Nat) :
    ∀ l : List A, (sortByTime time l).Perm l := by
  intro l
  induction l with
  | nil => exact List.Perm.refl _
  | cons x xs ih =>
    exact (insertByTime_perm time x (sortByTime time xs)).trans (ih.cons x)

/-- The continuations of one wave's wrapped page reads
(`readPageWithProgress`, `pagination.ts`, lines 138-149), executed in settle
order: each fulfilled read adds its result length to the running
`recordsProcessed` counter and invokes `onProgress(floor(offset / pageSize) +
1, totalPages, recordsProcessed)`; a rejected read runs no continuation.
Returns the updated counter and the emitted progress events in order. -/
def waveRun {T E : Type} (pageSize tp : Nat) :
    List ((Nat × Nat) × AsyncResult E (List T)) → Nat → Nat × List ProgressEvent
  | [], recs => (recs, [])
  | x :: rest, recs =>
    match x.2.val with
    | .error _ => waveRun pageSize tp rest recs
    | .ok rows =>
      let out := waveRun pageSize tp rest (recs + rows.length)
      (out.1, ⟨x.1.1 / pageSize + 1, tp, recs + rows.length⟩ :: out.2)

/-- Progress bookkeeping of one wave: the wrapped continuations run in settle
order (stable sort by settle time). -/
def waveProgress {T E : Type} (pageSize tp : Nat)
    (batch : List ((Nat × Nat) × AsyncResult E (List T))) (recs : Nat) :
    Nat × List ProgressEvent :=
  waveRun pageSize tp (sortByTime (fun x => x.2.time) batch) recs

/-- Wave loop of `processPaginatedWithProgress` (`pagination.ts`, lines
127-158): identical scheduling to `processPaginatedInParallel`, with each page
read wrapped so that its completion updates the shared `recordsProcessed`
counter and fires `onProgress` (modelled as the returned event list).  The
continuations of a wave fire even when a sibling read rejects; waves after a
rejected wave do not run. -/
def progressGo {T E : Type} (pageSize tp : Nat)
    (readPage : Nat → Nat → AsyncResult E (List T)) (maxConcurrency : Nat) :
    Nat → List (Nat × Nat) → Nat → Except E (List T) × Nat × List ProgressEvent
  | 0, _, recs => (.ok [], recs, [])
  | _ + 1, [], recs => (.ok [], recs, [])
  | fuel + 1, s :: rest, recs =>
    let batch := ((s :: rest).take maxConcurrency).map fun sp => (sp, readPage sp.1 sp.2)
    let wave := waveProgress pageSize tp batch recs
    match promiseAll (batch.map fun x => x.2) with
    | .error e => (.error e, wave.1, wave.2)
    | .ok batchResults =>
      let out := progressGo pageSize tp readPage maxConcurrency fuel
        ((s :: rest).drop maxConcurrency) wave.1
      (out.1.map fun tail => batchResults.flatten ++ tail, out.2.1, wave.2 ++ out.2.2)

/-- `processPaginatedWithProgress(totalCount, pageSize, readPage,
maxConcurrency, onProgress)` from `pagination.ts`: the returned value,
together with the final `recordsProcessed` counter and the sequence of
`onProgress` invocations. -/
def processPaginatedWithProgress {T E : Type} (totalCount pageSize : Nat)
    (readPage : Nat → Nat → AsyncResult E (List T)) (maxConcurrency : Nat) :
    Except E (List T) × Nat × List ProgressEvent :=
  progressGo pageSize (totalPages totalCount pageSize) readPage maxConcurrency
    (pageSpecs totalCount pageSize).length (pageSpecs totalCount pageSize) 0

section ProgressLemmas

variable {T E : Type}

/-- Running one wave's fulfilled continuations in any given order: the counter
grows by the total length of the pages, and one event per page is emitted
carrying `floor(offset / pageSize) + 1` and `totalPages`. -/
theorem waveRun_ok (pageSize tp : Nat) (rows : Nat × Nat → List T) :
    ∀ (l : List ((Nat × Nat) × AsyncResult E (List T))) (recs : Nat),
      (∀ x ∈ l, x.2.val = .ok (rows x.1)) →
      (waveRun pageSize tp l recs).1 = recs + (l.map fun x => (rows x.1).length).sum ∧
      (waveRun pageSize tp l recs).2.map (fun ev => (ev.currentPage, ev.totalPages)) =
        l.map fun x => (x.1.1 / pageSize + 1, tp) := by
  intro l
  induction l with
  | nil => intro recs h; simp [waveRun]
  | cons x rest ih =>
    intro recs h
    have hx := h x (List.mem_cons_self _ _)
    obtain ⟨ih1, ih2⟩ :=
      ih (recs + (rows x.1).length) fun y hy => h y (List.mem_cons_of_mem _ hy)
    constructor
    · simp only [waveRun, hx, ih1, List.map_cons, List.sum_cons]
      omega
    · simp only [waveRun, hx, List.map_cons, ih2]

/-- One wave of `processPaginatedWithProgress`, with the continuations resumed
in settle order: counter increment, number of events, and the page/totalPages
arguments (as a multiset over the wave). -/
theorem waveProgress_ok (pageSize tp : Nat) (rows : Nat × Nat → List T)
    (batch : List ((Nat × Nat) × AsyncResult E (List T))) (recs : Nat)
    (h : ∀ x ∈ batch, x.2.val = .ok (rows x.1)) :
    (waveProgress pageSize tp batch recs).1 =
        recs + (batch.map fun x => (rows x.1).length).sum ∧
      (waveProgress pageSize tp batch recs).2.length = batch.length ∧
      ((waveProgress pageSize tp batch recs).2.map
          (fun ev => (ev.currentPage, ev.totalPages))).Perm
        (batch.map fun x => (x.1.1 / pageSize + 1, tp)) := by
  have hperm := sortByTime_perm (fun x : (Nat × Nat) × AsyncResult E (List T) => x.2.time) batch
  have hsorted : ∀ x ∈ sortByTime (fun x => x.2.time) batch, x.2.val = .ok (rows x.1) :=
    fun x hx => h x (hperm.mem_iff.mp hx)
  obtain ⟨h1, h2⟩ := waveRun_ok pageSize tp rows (sortByTime (fun x => x.2.time) batch)
    recs hsorted
  refine ⟨?_, ?_, ?_⟩
  · rw [waveProgress, h1, (hperm.map fun x => (rows x.1).length).sum_eq]
  · have := congrArg List.length h2
    simp only [List.length_map] at this
    rw [waveProgress, this, hperm.length_eq]
  · rw [waveProgress, h2]
    exact hperm.map _

/-- The wave loop of `processPaginatedWithProgress` over any page-spec list,
when every page read fulfils: the returned value is the in-order flattening,
the counter ends at the total record count, and exactly one progress event is
emitted per page with the page's number and `totalPages`. -/
theorem progressGo_ok (pageSize tp : Nat) (t : Nat → Nat → Nat) (rows : Nat → Nat → List T)
    (mc : Nat) (hmc : 1 ≤ mc) :
    ∀ fuel (specs : List (Nat × Nat)) (recs : Nat), specs.length ≤ fuel →
      (progressGo (E := E) pageSize tp (fun o l => ⟨t o l, .ok (rows o l)⟩) mc
            fuel specs recs).1 =
          .ok ((specs.map fun sp => rows sp.1 sp.2).flatten) ∧
        (progressGo (E := E) pageSize tp (fun o l => ⟨t o l, .ok (rows o l)⟩) mc
            fuel specs recs).2.1 =
          recs + (specs.map fun sp => (rows sp.1 sp.2).length).sum ∧
        (progressGo (E := E) pageSize tp (fun o l => ⟨t o l, .ok (rows o l)⟩) mc
            fuel specs recs).2.2.length = specs.length ∧
        ((progressGo (E := E) pageSize tp (fun o l => ⟨t o l, .ok (rows o l)⟩) mc
            fuel specs recs).2.2.map (fun ev => (ev.currentPage, ev.totalPages))).Perm
          (specs.map fun sp => (sp.1 / pageSize + 1, tp)) := by
  intro fuel
  induction fuel with
  | zero =>
    intro specs recs hl
    rw [Nat.le_zero, List.length_eq_zero] at hl
    subst hl
    simp [progressGo]
  | succ fuel ih =>
    intro specs recs hl
    match specs with
    | [] => simp [progressGo]
    | s :: rest =>
      simp only [List.length_cons] at hl
      have hdroplen : ((s :: rest).drop mc).length ≤ fuel := by
        simp only [List.length_drop, List.length_cons]
        omega
      have hshape : ∀ x ∈ ((s :: rest).take mc).map
          (fun sp => (sp, (⟨t sp.1 sp.2, .ok (rows sp.1 sp.2)⟩ : AsyncResult E (List T)))),
          x.2.val = .ok ((fun sp : Nat × Nat => rows sp.1 sp.2) x.1) := by
        intro x hx
        obtain ⟨sp, -, rfl⟩ := List.mem_map.mp hx
        rfl
      obtain ⟨hw1, hw2, hw3⟩ := waveProgress_ok pageSize tp
        (fun sp : Nat × Nat => rows sp.1 sp.2)
        (((s :: rest).take mc).map fun sp =>
          (sp, (⟨t sp.1 sp.2, .ok (rows sp.1 sp.2)⟩ : AsyncResult E (List T))))
        recs hshape
      have hpa :
          promiseAll ((((s :: rest).take mc).map fun sp =>
              (sp, (⟨t sp.1 sp.2, .ok (rows sp.1 sp.2)⟩ : AsyncResult E (List T)))).map
            fun x => x.2) =
            .ok (((s :: rest).take mc).map fun sp : Nat × Nat => rows sp.1 sp.2) := by
        rw [List.map_map]
        exact promiseAll_map_ok (fun sp : Nat × Nat => t sp.1 sp.2)
          (fun sp : Nat × Nat => rows sp.1 sp.2) ((s :: rest).take mc)
      obtain ⟨ih1, ih2, ih3, ih4⟩ := ih ((s :: rest).drop mc)
        (recs + (((s :: rest).take mc).map fun sp => (rows sp.1 sp.2).length).sum) hdroplen
      have hw1' : (waveProgress pageSize tp (((s :: rest).take mc).map fun sp =>
          (sp, (⟨t sp.1 sp.2, .ok (rows sp.1 sp.2)⟩ : AsyncResult E (List T)))) recs).1 =
          recs + (((s :: rest).take mc).map fun sp : Nat × Nat => (rows sp.1 sp.2).length).sum := by
        rw [hw1, List.map_map]
        rfl
      have hw2' : (waveProgress pageSize tp (((s :: rest).take mc).map fun sp =>
          (sp, (⟨t sp.1 sp.2, .ok (rows sp.1 sp.2)⟩ : AsyncResult E (List T)))) recs).2.length =
          ((s :: rest).take mc).length := by
        rw [hw2, List.length_map]
      have hw3' : ((waveProgress pageSize tp (((s :: rest).take mc).map fun sp =>
          (sp, (⟨t sp.1 sp.2, .ok (rows sp.1 sp.2)⟩ : AsyncResult E (List T)))) recs).2.map
            (fun ev => (ev.currentPage, ev.totalPages))).Perm
          (((s :: rest).take mc).map fun sp : Nat × Nat => (sp.1 / pageSize + 1, tp)) := by
        refine hw3.trans ?_
        rw [List.map_map]
        exact List.Perm.refl _
      refine ⟨?_, ?_, ?_, ?_⟩
      · simp only [progressGo, hpa, hw1', ih1, Except.map]
        rw [← List.flatten_append, ← List.map_append, List.take_append_drop]
      · simp only [progressGo, hpa, hw1', ih2]
        conv_rhs => rw [← List.take_append_drop mc (s :: rest)]
        rw [List.map_append, List.sum_append]
        omega
      · simp only [progressGo, hpa, hw1', List.length_append, hw2', ih3]
        have h4 := congrArg List.length (List.take_append_drop mc (s :: rest))
        simp only [List.length_append] at h4
        exact h4
      · simp only [progressGo, hpa, hw1', List.map_append]
        refine (hw3'.append ih4).trans ?_
        rw [← List.map_append, List.take_append_drop]

end ProgressLemmas

/-- JavaScript `Array.prototype.slice(start, end)`: negative indices count
from the end, and both indices are clamped to `[0, length]`. -/
def jsSlice {A : Type} (l : List A) (start stop : Int) : List A :=
  let len : Int := l.length
  let s := if start < 0 then max (len + start) 0 else min start len
  let e := if stop < 0 then max (len + stop) 0 else min stop len
  (l.take e.toNat).drop s.toNat

/-- Literal translation of the loop of `chunkArray` (`pagination.ts`, lines
23-25): `for (let i = 0; i < array.length; i += chunkSize)
chunks.push(array.slice(i, i + chunkSize))`, with `Int`-valued index and
chunk size.  `none` means the loop did not finish within `fuel` iterations;
a result that is `none` for every fuel is a non-terminating call. -/
def chunkArrayLoopJS {T : Type} (array : List T) (chunkSize : Int) :
    Nat → Int → List (List T) → Option (List (List T))
  | 0, _, _ => none
  | fuel + 1, i, chunks =>
    if i < (array.length : Int) then
      chunkArrayLoopJS array chunkSize fuel (i + chunkSize)
        (chunks ++ [jsSlice array i (i + chunkSize)])
    else some chunks

/-- `chunkArray` as the literal JavaScript loop, fuel-instrumented. -/
def chunkArrayJS {T : Type} (fuel : Nat) (array : List T) (chunkSize : Int) :
    Option (List (List T)) :=
  chunkArrayLoopJS array chunkSize fuel 0 []

/-- Literal translation of the wave loop of `processChunksInParallel`
(`pagination.ts`, lines 47-52) with `Int`-valued index and concurrency:
`for (let i = 0; i < chunks.length; i += maxConcurrency)` with
`batch = chunks.slice(i, i + maxConcurrency)` and an `await
Promise.all(batch.map(processChunk))` whose rejection aborts the call. -/
def wavesLoopJS {T E R : Type} (chunks : List (List T))
    (processChunk : List T → AsyncResult E R) (mc : Int) :
    Nat → Int → List R → Option (Except E (List R))
  | 0, _, _ => none
  | fuel + 1, i, results =>
    if i < (chunks.length : Int) then
      match promiseAll ((jsSlice chunks i (i + mc)).map processChunk) with
      | .error e => some (.error e)
      | .ok batchResults =>
        wavesLoopJS chunks processChunk mc fuel (i + mc) (results ++ batchResults)
    else some (.ok results)

/-- `processChunksInParallel` as the literal JavaScript loops,
fuel-instrumented: chunk the items, then run the wave loop. -/
def processChunksInParallelJS {T E R : Type} (fuel : Nat) (items : List T) (chunkSize : Int)
    (processChunk : List T → AsyncResult E R) (mc : Int) : Option (Except E (List R)) :=
  (chunkArrayJS fuel items chunkSize).bind fun chunks =>
    wavesLoopJS chunks processChunk mc fuel 0 []

section JsLoopLemmas

variable {T E R : Type}

/-- With `chunkSize ≤ 0` and a nonempty array, the chunking loop never exits:
the index never grows, so every fuel is exhausted. -/
theorem chunkArrayLoopJS_none_of_nonpos (array : List T) (cs : Int)
    (harr : array ≠ []) (hcs : cs ≤ 0) :
    ∀ fuel (i : Int) (chunks : List (List T)), i ≤ 0 →
      chunkArrayLoopJS array cs fuel i chunks = none := by
  have hlen : (0 : Int) < (array.length : Int) := by
    exact_mod_cast List.length_pos.mpr harr
  intro fuel
  induction fuel with
  | zero => intro i chunks hi; rfl
  | succ fuel ih =>
    intro i chunks hi
    rw [chunkArrayLoopJS, if_pos (by omega)]
    exact ih (i + cs) _ (by omega)

/-- With `maxConcurrency = 0`, each wave is the empty slice, the index never
grows, and the wave loop never exits. -/
theorem wavesLoopJS_none_of_mc_zero (chunks : List (List T))
    (p : List T → AsyncResult E R) :
    ∀ fuel (i : Int) (results : List R), 0 ≤ i → i < (chunks.length : Int) →
      wavesLoopJS chunks p 0 fuel i results = none := by
  intro fuel
  induction fuel with
  | zero => intro i results h0 hi; rfl
  | succ fuel ih =>
    intro i results h0 hi
    have hslice : jsSlice chunks i (i + 0) = [] := by
      simp only [jsSlice, add_zero]
      apply List.drop_eq_nil_of_le
      simp [List.length_take]
    rw [wavesLoopJS, if_pos hi, hslice]
    show wavesLoopJS chunks p 0 fuel (i + 0) (results ++ []) = none
    rw [add_zero, List.append_nil]
    exact ih i results h0 hi

theorem chunkArrayLoopJS_some_ne_nil (array : List T) (cs : Int) :
    ∀ fuel (i : Int) (chunks res : List (List T)), chunks ≠ [] →
      chunkArrayLoopJS array cs fuel i chunks = some res → res ≠ [] := by
  intro fuel
  induction fuel with
  | zero => intro i chunks res hne h; exact absurd h (by simp [chunkArrayLoopJS])
  | succ fuel ih =>
    intro i chunks res hne h
    rw [chunkArrayLoopJS] at h
    split_ifs at h
    · exact ih (i + cs) (chunks ++ [jsSlice array i (i + cs)]) res (by simp) h
    · obtain rfl := Option.some.inj h
      exact hne

/-- A terminating `chunkArray` call on a nonempty array yields a nonempty
chunk list. -/
theorem chunkArrayJS_some_ne_nil (fuel : Nat) (array : List T) (cs : Int)
    (harr : array ≠ []) (res : List (List T)) (h : chunkArrayJS fuel array cs = some res) :
    res ≠ [] := by
  have hlen : (0 : Int) < (array.length : Int) := by
    exact_mod_cast List.length_pos.mpr harr
  match fuel with
  | 0 => exact absurd h (by simp [chunkArrayJS, chunkArrayLoopJS])
  | fuel + 1 =>
    rw [chunkArrayJS, chunkArrayLoopJS, if_pos hlen] at h
    exact chunkArrayLoopJS_some_ne_nil array cs fuel _ _ res (by simp) h

end JsLoopLemmas

/-- Input to `PaginationRequestSchema` (`pagination.ts`, lines 3-6): each field
is either absent (`none`, triggering the zod `.default(...)`) or a numeric
value, modelled as a rational (integrality is not part of `z.number()`;
`NaN` is outside the model). -/
structure PaginationInput where
  page : Option ℚ
  size : Option ℚ

/-- A zod issue for a violated bound check, carrying the failing field and the
constraint. -/
inductive ZodCheckFailure where
  | tooSmall (field : String) (minimum : ℚ)
  | tooBig (field : String) (maximum : ℚ)
deriving DecidableEq, Repr

/-- The parsed `PaginationRequest` (`pagination.ts`, line 8). -/
structure PaginationRequest where
  page : ℚ
  size : ℚ
deriving DecidableEq, Repr

/-- `PaginationRequestSchema.parse`: `z.object` with
`page: z.number().min(0).default(0)` and
`size: z.number().min(1).max(100).default(10)` (`pagination.ts`, lines 3-6).
An absent field takes its default (which satisfies the field's checks, so
defaulting before checking is equivalent to zod's skipping of checks on the
default); zod collects one issue per violated check, field by field. -/
def PaginationRequestSchema.parse (input : PaginationInput) :
    Except (List ZodCheckFailure) PaginationRequest :=
  let page := input.page.getD 0
  let size := input.size.getD 10
  let issues :=
    (if page < 0 then [ZodCheckFailure.tooSmall "page" 0] else []) ++
    (if size < 1 then [ZodCheckFailure.tooSmall "size" 1] else []) ++
    (if 100 < size then [ZodCheckFailure.tooBig "size" 100] else [])
  if issues = [] then .ok ⟨page, size⟩ else .error issues

/-- A `string | number` key as returned by the key selectors of
`compareListsByKey` (`arrayUtils.ts`, lines 13-14). -/
inductive JsKey where
  | str : String → JsKey
  | num : Int → JsKey
deriving DecidableEq, Repr

/-- JavaScript `String(key)` for a `string | number` key (the claims only
involve integer-valued numeric keys, rendered as by `String(...)`). -/
def JsKey.toJsString : JsKey → String
  | .str s => s
  | .num n => toString n

/-- `Map.get` on a `Map` built with `new Map(entries)`: a later entry with the
same key overwrites an earlier one (last-write-wins), so the lookup returns
the value of the last matching entry. -/
def jsMapGet {T : Type} (entries : List (String × T)) (k : String) : Option T :=
  (entries.reverse.find? fun e => e.1 == k).map Prod.snd

/-- The single pass over `targetList` in `compareListsByKey` (`arrayUtils.ts`,
lines 29-40).  The TypeScript `if (sourceItem)` tests JavaScript truthiness of
the looked-up value, with `undefined` (absent key) falsy; `truthy` is the
ToBoolean coercion for values of `T` (for integer-valued numbers: `v ≠ 0`).
`transformFound` is the optional transform; `idCast` models the
`sourceItem as unknown as R` push of the no-transform branch (the identity,
at `R = T`). -/
def compareLoop {T U R : Type} (sourceMap : List (String × T)) (targetKeySelector : U → JsKey)
    (truthy : T → Bool) (transformFound : Option (T → U → R)) (idCast : T → R) :
    List U → List R × List U
  | [] => ([], [])
  | targetItem :: ts =>
    let rest := compareLoop sourceMap targetKeySelector truthy transformFound idCast ts
    match jsMapGet sourceMap (JsKey.toJsString (targetKeySelector targetItem)) with
    | some sourceItem =>
      if truthy sourceItem then
        ((match transformFound with
          | some tf => tf sourceItem targetItem
          | none => idCast sourceItem) :: rest.1, rest.2)
      else (rest.1, targetItem :: rest.2)
    | none => (rest.1, targetItem :: rest.2)

/-- `compareListsByKey(sourceList, targetList, sourceKeySelector,
targetKeySelector, transformFound?)` from `arrayUtils.ts`: build the source
lookup `new Map(sourceList.map(item => [String(sourceKeySelector(item)),
item]))`, then classify each target item into `found` / `notFound`. -/
def compareListsByKey {T U R : Type} (sourceList : List T) (targetList : List U)
    (sourceKeySelector : T → JsKey) (targetKeySelector : U → JsKey)
    (truthy : T → Bool) (transformFound : Option (T → U → R)) (idCast : T → R) :
    List R × List U :=
  compareLoop (sourceList.map fun item => (JsKey.toJsString (sourceKeySelector item), item))
    targetKeySelector truthy transformFound idCast targetList

/-- JavaScript ToBoolean for an integer-valued number: zero is falsy. -/
def intTruthy (v : Int) : Bool :=
  v != 0

/-- The value a matched target item contributes to `found`: the transformed
pair when `transformFound` is supplied, otherwise the (cast) source item. -/
def foundEmit {T U R : Type} (transformFound : Option (T → U → R)) (idCast : T → R)
    (s : T) (u : U) : R :=
  match transformFound with
  | some tf => tf s u
  | none => idCast s

section CompareLemmas

variable {T U R : Type}

/-- The lookup built from `sourceList` returns the last source item (in
traversal order) whose string-coerced key matches: last-write-wins. -/
theorem jsMapGet_map_key (key : T → String) (l : List T) (k : String) :
    jsMapGet (l.map fun item => (key item, item)) k =
      l.reverse.find? fun item => key item == k := by
  unfold jsMapGet
  rw [← List.map_reverse, List.find?_map, Option.map_map]
  rw [show (Prod.snd ∘ fun item : T => (key item, item)) = id from rfl]
  rw [show ((fun e : String × T => e.1 == k) ∘ fun item => (key item, item)) =
    (fun item => key item == k) from rfl]
  rw [Option.map_id]
  rfl

/-- Closed form of the target pass: `found` collects (in target order) the
emitted values of the truthy-matched target items, `notFound` collects (in
target order) the target items whose lookup is absent or falsy. -/
theorem compareLoop_spec (sourceMap : List (String × T)) (targetKeySelector : U → JsKey)
    (truthy : T → Bool) (transformFound : Option (T → U → R)) (idCast : T → R) :
    ∀ ts : List U,
      compareLoop sourceMap targetKeySelector truthy transformFound idCast ts =
        (ts.filterMap fun u =>
          match jsMapGet sourceMap (JsKey.toJsString (targetKeySelector u)) with
          | some s => if truthy s then some (foundEmit transformFound idCast s u) else none
          | none => none,
         ts.filter fun u =>
          match jsMapGet sourceMap (JsKey.toJsString (targetKeySelector u)) with
          | some s => !truthy s
          | none => true) := by
  intro ts
  induction ts with
  | nil => rfl
  | cons u ts ih =>
    rcases hget : jsMapGet sourceMap (JsKey.toJsString (targetKeySelector u)) with - | s
    · simp [compareLoop, ih, hget, List.filterMap_cons, List.filter_cons]
    · by_cases ht : truthy s
      · simp [compareLoop, ih, hget, ht, List.filterMap_cons, List.filter_cons, foundEmit]
      · simp [compareLoop, ih, hget, ht, List.filterMap_cons, List.filter_cons]

end CompareLemmas

instance exceptDecEq {E A : Type} [DecidableEq E] [DecidableEq A] :
    DecidableEq (Except E A) := fun x y =>
  match x, y with
  | .ok a, .ok b =>
    if h : a = b then .isTrue (by rw [h]) else .isFalse (by simp [h])
  | .ok _, .error _ => .isFalse (by simp)
  | .error _, .ok _ => .isFalse (by simp)
  | .error e, .error e' =>
    if h : e = e' then .isTrue (by rw [h]) else .isFalse (by simp [h])

theorem flatten_map_singleton {A : Type} : ∀ l : List A, (l.map fun x => [x]).flatten = l := by
  intro l
  induction l with
  | nil => rfl
  | cons a l ih => simp [ih]

/-- C1: for every items list, chunkSize ≥ 1, maxConcurrency ≥ 1 and fulfilled
per-chunk results, `processChunksInParallel` returns the per-chunk results in
original chunk order (entry i is the result for chunk i of `chunkArray`),
independently of the settle times (so never in completion order); likewise
`processPaginatedInParallel` flattens the page results in page order. -/
theorem claim_C1 {T E U : Type} (items : List T) (chunkSize maxConcurrency : Nat)
    (hcs : 1 ≤ chunkSize) (hmc : 1 ≤ maxConcurrency)
    (t : List T → Nat) (f : List T → U)
    (tp : Nat → Nat → Nat) (rows : Nat → Nat → List U) (totalCount pageSize : Nat) :
    processChunksInParallel (E := E) items chunkSize (fun c => ⟨t c, .ok (f c)⟩)
        maxConcurrency = .ok ((chunkArray items chunkSize).map f) ∧
      processPaginatedInParallel (E := E) totalCount pageSize
          (fun o l => ⟨tp o l, .ok (rows o l)⟩) maxConcurrency =
        .ok ((pageSpecs totalCount pageSize).map fun sp => rows sp.1 sp.2).flatten :=
  ⟨chunksGo_map_ok t f maxConcurrency hmc _ (chunkArray items chunkSize) le_rfl,
   paginatedGo_map_ok tp rows maxConcurrency hmc _ (pageSpecs totalCount pageSize) le_rfl⟩

/-- C1 witness: a concrete run with two waves; results are in chunk order and
page order even though the settle times are reversed. -/
theorem claim_C1_witness :
    processChunksInParallel (E := String) [1, 2, 3] 2
        (fun c : List Int => ⟨10 - c.length, .ok c.length⟩) 1 = .ok [2, 1] ∧
      processPaginatedInParallel (E := String) 10 3
          (fun o l => ⟨100 - o, .ok (List.replicate l o)⟩) 2 =
        .ok [0, 0, 0, 3, 3, 3, 6, 6, 6, 9] := by
  obtain ⟨h1, h2⟩ := claim_C1 (E := String) [1, 2, 3] 2 1 (by decide) (by decide)
    (fun c => 10 - c.length) (fun c => c.length)
    (fun o _ => 100 - o) (fun o l => List.replicate l o) 10 3
  exact ⟨h1.trans (by decide), h2.trans (by decide)⟩

/-- C2: if some chunk's `process` invocation rejects (chunkSize ≥ 1,
maxConcurrency ≥ 1), the whole `processChunksInParallel` call rejects with
the reason of a rejecting invocation — so no result list is returned, even if
other chunks succeeded; in particular, when all rejecting invocations carry
the same error, the call fails with exactly that error. -/
theorem claim_C2 {T E R : Type} (items : List T) (chunkSize maxConcurrency : Nat)
    (process : List T → AsyncResult E R)
    (hcs : 1 ≤ chunkSize) (hmc : 1 ≤ maxConcurrency)
    (hfail : ∃ c ∈ chunkArray items chunkSize, ∃ e, (process c).val = .error e) :
    (∃ c ∈ chunkArray items chunkSize, ∃ e, (process c).val = .error e ∧
        processChunksInParallel items chunkSize process maxConcurrency = .error e) ∧
      ∀ e, (∀ c ∈ chunkArray items chunkSize, ∀ e', (process c).val = .error e' → e' = e) →
        processChunksInParallel items chunkSize process maxConcurrency = .error e := by
  have h1 := chunksGo_error process maxConcurrency hmc _ (chunkArray items chunkSize)
    le_rfl hfail
  refine ⟨h1, ?_⟩
  intro e hall
  obtain ⟨c, hc, e', he', hres⟩ := h1
  rw [hall c hc e' he'] at hres
  exact hres

/-- C2 witness: the second chunk of the single wave rejects with "boom" while
the first fulfils; the whole call rejects with "boom". -/
theorem claim_C2_witness :
    processChunksInParallel [1, 2, 3, 4] 2
        (fun c : List Int =>
          if c = [3, 4] then ⟨5, .error "boom"⟩ else ⟨0, .ok c.length⟩) 2 =
      .error "boom" := by
  have hchunks : chunkArray ([1, 2, 3, 4] : List Int) 2 = [[1, 2], [3, 4]] := by decide
  obtain ⟨-, h2⟩ := claim_C2 [1, 2, 3, 4] 2 2
    (fun c : List Int => if c = [3, 4] then ⟨5, .error "boom"⟩ else ⟨0, .ok c.length⟩)
    (by decide) (by decide) ⟨[3, 4], by decide, "boom", by decide⟩
  refine h2 "boom" ?_
  intro c hc e' he'
  rw [hchunks, List.mem_cons, List.mem_singleton] at hc
  rcases hc with rfl | rfl
  · simp at he'
  · simp at he'
    exact he'.symm

/-- C3: for chunkSize ≥ 1, concatenating the chunks of `chunkArray`
reproduces the input exactly; every chunk except possibly the last has length
exactly chunkSize; chunk i is the sub-sequence starting at i·chunkSize of
length at most chunkSize; and an empty input yields no chunks. -/
theorem claim_C3 {T : Type} (items : List T) (chunkSize : Nat) (hcs : 1 ≤ chunkSize) :
    (chunkArray items chunkSize).flatten = items ∧
      (∀ c ∈ (chunkArray items chunkSize).dropLast, c.length = chunkSize) ∧
      (∀ i (hi : i < (chunkArray items chunkSize).length),
        (chunkArray items chunkSize)[i] = (items.drop (i * chunkSize)).take chunkSize) ∧
      (items = [] → chunkArray items chunkSize = []) :=
  ⟨chunkArrayGo_flatten chunkSize hcs items.length items le_rfl,
   chunkArrayGo_dropLast_length chunkSize hcs items.length items le_rfl,
   chunkArrayGo_getElem chunkSize hcs items.length items le_rfl,
   by intro h; subst h; rfl⟩

/-- C3 witness: a concrete partition with a short last chunk. -/
theorem claim_C3_witness :
    (chunkArray ([1, 2, 3, 4, 5] : List Int) 2).flatten = [1, 2, 3, 4, 5] ∧
      chunkArray ([1, 2, 3, 4, 5] : List Int) 2 = [[1, 2], [3, 4], [5]] :=
  ⟨(claim_C3 [1, 2, 3, 4, 5] 2 (by decide)).1, by decide⟩

/-- C4: for pageSize ≥ 1 and maxConcurrency ≥ 1, `processPaginatedInParallel`
invokes `readPage` exactly `ceil(totalCount / pageSize)` times, once per page
index p in page order with offset `p * pageSize` and limit
`min(pageSize, totalCount - offset)` (the last page is clipped and no read
goes past `totalCount`), flattens the page results in page order, and
`totalCount = 0` yields an empty result with zero invocations. -/
theorem claim_C4 {T E : Type} (totalCount pageSize maxConcurrency : Nat)
    (hps : 1 ≤ pageSize) (hmc : 1 ≤ maxConcurrency)
    (t : Nat → Nat → Nat) (rows : Nat → Nat → List T) :
    processPaginatedInParallel (E := E) totalCount pageSize
        (fun o l => ⟨t o l, .ok [(o, l)]⟩) maxConcurrency =
      .ok ((List.range (totalPages totalCount pageSize)).map fun p =>
        (p * pageSize, min pageSize (totalCount - p * pageSize))) ∧
    (pageSpecs totalCount pageSize).length = totalPages totalCount pageSize ∧
    Nat.ceil ((totalCount : ℚ) / pageSize) = totalPages totalCount pageSize ∧
    totalCount ≤ totalPages totalCount pageSize * pageSize ∧
    (0 < totalCount → (totalPages totalCount pageSize - 1) * pageSize < totalCount) ∧
    (∀ sp ∈ pageSpecs totalCount pageSize, sp.1 + sp.2 ≤ totalCount ∧ sp.2 ≤ pageSize) ∧
    processPaginatedInParallel (E := E) totalCount pageSize
        (fun o l => ⟨t o l, .ok (rows o l)⟩) maxConcurrency =
      .ok ((pageSpecs totalCount pageSize).map fun sp => rows sp.1 sp.2).flatten ∧
    (totalCount = 0 → pageSpecs totalCount pageSize = [] ∧
      processPaginatedInParallel (E := E) totalCount pageSize
        (fun o l => ⟨t o l, .ok (rows o l)⟩) maxConcurrency = .ok []) := by
  refine ⟨?_, ?_, totalPages_eq_ceil totalCount pageSize hps,
    (totalPages_spec totalCount pageSize hps).1,
    (totalPages_spec totalCount pageSize hps).2, ?_, ?_, ?_⟩
  · have h := paginatedGo_map_ok (E := E) t (fun o l => [(o, l)]) maxConcurrency hmc
      (pageSpecs totalCount pageSize).length (pageSpecs totalCount pageSize) le_rfl
    refine h.trans ?_
    rw [show (fun sp : Nat × Nat => [(sp.1, sp.2)]) = (fun sp : Nat × Nat => [sp]) from rfl]
    rw [flatten_map_singleton]
    rfl
  · simp [pageSpecs]
  · intro sp hsp
    simp only [pageSpecs, List.mem_map, List.mem_range] at hsp
    obtain ⟨p, hp, rfl⟩ := hsp
    rcases Nat.eq_zero_or_pos totalCount with h0 | h0
    · subst h0
      rw [show totalPages 0 pageSize = 0 from by
        unfold totalPages; rw [Nat.zero_add]; exact Nat.div_eq_of_lt (by omega)] at hp
      omega
    · have h2 := (totalPages_spec totalCount pageSize hps).2 h0
      have hp1 : p * pageSize ≤ (totalPages totalCount pageSize - 1) * pageSize :=
        Nat.mul_le_mul_right _ (by omega)
      have hX : p * pageSize < totalCount := lt_of_le_of_lt hp1 h2
      have hmin : min pageSize (totalCount - p * pageSize) ≤ totalCount - p * pageSize :=
        min_le_right _ _
      constructor
      · generalize p * pageSize = X at hX hmin ⊢
        omega
      · exact min_le_left _ _
  · exact paginatedGo_map_ok (E := E) t rows maxConcurrency hmc
      (pageSpecs totalCount pageSize).length (pageSpecs totalCount pageSize) le_rfl
  · intro h0
    subst h0
    have hempty : pageSpecs 0 pageSize = [] := by
      unfold pageSpecs totalPages
      rw [Nat.zero_add, Nat.div_eq_of_lt (by omega)]
      rfl
    refine ⟨hempty, ?_⟩
    unfold processPaginatedInParallel
    rw [hempty]
    rfl

/-- C4 witness: totalCount 10, pageSize 3: four reads `(0,3) (3,3) (6,3)
(9,1)` in page order; zero pages for totalCount 0. -/
theorem claim_C4_witness :
    processPaginatedInParallel (E := String) 10 3 (fun o l => ⟨o + l, .ok [(o, l)]⟩) 2 =
        .ok [(0, 3), (3, 3), (6, 3), (9, 1)] ∧
      totalPages 10 3 = 4 ∧
      pageSpecs 0 3 = [] := by
  obtain ⟨h1, -, -, -, -, -, -, -⟩ := claim_C4 (E := String) 10 3 2 (by decide) (by decide)
    (fun o l => o + l) (fun o l => List.replicate l o)
  refine ⟨h1.trans (by decide), by decide, ?_⟩
  exact (claim_C4 (E := String) 0 3 2 (by decide) (by decide)
    (fun o l => o + l) (fun o l => List.replicate l o)).2.2.2.2.2.2.2 rfl |>.1

/-- C6: for chunkSize ≥ 1 and maxConcurrency ≥ 1, when every per-chunk
invocation fulfils with a number, `processChunksInParallelWithSum` returns the
arithmetic sum of the per-chunk numbers over all chunks (independently of the
settle times and of maxConcurrency), and an empty items list yields 0. -/
theorem claim_C6 {T E : Type} (items : List T) (chunkSize maxConcurrency : Nat)
    (hcs : 1 ≤ chunkSize) (hmc : 1 ≤ maxConcurrency)
    (t : List T → Nat) (f : List T → Int) :
    processChunksInParallelWithSum (E := E) items chunkSize (fun c => ⟨t c, .ok (f c)⟩)
        maxConcurrency = .ok ((chunkArray items chunkSize).map f).sum ∧
      (items = [] → processChunksInParallelWithSum (E := E) items chunkSize
        (fun c => ⟨t c, .ok (f c)⟩) maxConcurrency = .ok 0) := by
  have h := chunksGo_map_ok (E := E) t f maxConcurrency hmc
    (chunkArray items chunkSize).length (chunkArray items chunkSize) le_rfl
  constructor
  · unfold processChunksInParallelWithSum processChunksInParallel
    rw [h]
    simp [Except.map, List.sum_eq_foldl]
  · intro h0
    subst h0
    rfl

/-- C6 witness: items [1,2,3,4,5], chunkSize 2, per-chunk sum, maxConcurrency
3: the chunk sums are 3, 7, 5 and the result is 15. -/
theorem claim_C6_witness :
    processChunksInParallelWithSum (E := String) [1, 2, 3, 4, 5] 2
        (fun c => ⟨0, .ok (c.foldl (· + ·) 0)⟩) 3 = .ok 15 :=
  (claim_C6 [1, 2, 3, 4, 5] 2 3 (by decide) (by decide) (fun _ => 0)
    (fun c => c.foldl (· + ·) 0)).1.trans (by decide)

/-- C5 counterexample: with `items = []`, `chunkSize = 0` and
`maxConcurrency = 0`, the claim predicts an immediate invalid-argument
failure, but the code performs no argument validation: the literal loops
terminate at once and the call succeeds with the empty result. -/
theorem claim_C5_counterexample :
    processChunksInParallelJS 5 ([] : List Int) 0
      (fun c => (⟨0, .ok c.length⟩ : AsyncResult String Nat)) 0 = some (.ok []) := by
  decide

/-- C5 amended: `processChunksInParallel` performs no validation of
`chunkSize` / `maxConcurrency`, and never raises an invalid-argument error.
On an empty items list it returns a successful empty result whatever the two
parameters are; on a nonempty items list with `chunkSize < 1` the chunking
loop never terminates (and `process` is never invoked, as the wave loop is
never reached); on a nonempty items list with `chunkSize ≥ 1` and
`maxConcurrency = 0` the wave loop never terminates. -/
theorem claim_C5_amended {T E R : Type} (items : List T) (chunkSize maxConcurrency : Int)
    (process : List T → AsyncResult E R) :
    (items = [] → ∀ fuel, 1 ≤ fuel →
        processChunksInParallelJS fuel items chunkSize process maxConcurrency =
          some (.ok [])) ∧
      (items ≠ [] → chunkSize ≤ 0 → ∀ fuel,
        processChunksInParallelJS fuel items chunkSize process maxConcurrency = none) ∧
      (items ≠ [] → 1 ≤ chunkSize → maxConcurrency = 0 → ∀ fuel,
        processChunksInParallelJS fuel items chunkSize process maxConcurrency = none) := by
  refine ⟨?_, ?_, ?_⟩
  · intro h0 fuel hf
    subst h0
    match fuel, hf with
    | f + 1, _ =>
      simp [processChunksInParallelJS, chunkArrayJS, chunkArrayLoopJS, wavesLoopJS]
  · intro hne hcs fuel
    unfold processChunksInParallelJS chunkArrayJS
    rw [chunkArrayLoopJS_none_of_nonpos items chunkSize hne hcs fuel 0 [] le_rfl]
    rfl
  · intro hne hcs hmc fuel
    subst hmc
    unfold processChunksInParallelJS
    rcases hca : chunkArrayJS fuel items chunkSize with - | chunks
    · rfl
    · have hne' : chunks ≠ [] := chunkArrayJS_some_ne_nil fuel items chunkSize hne chunks hca
      show wavesLoopJS chunks process 0 fuel 0 [] = none
      exact wavesLoopJS_none_of_mc_zero chunks process fuel 0 [] le_rfl
        (by exact_mod_cast List.length_pos.mpr hne')

/-- C5 witness: a nonempty items list with `chunkSize = 0` — after 100 loop
iterations the call has still neither failed nor returned. -/
theorem claim_C5_witness :
    ([1] : List Int) ≠ [] ∧ (0 : Int) ≤ 0 ∧
      processChunksInParallelJS 100 ([1] : List Int) 0
        (fun c => (⟨0, .ok c.length⟩ : AsyncResult String Nat)) 1 = none := by
  refine ⟨by decide, by decide, ?_⟩
  exact (claim_C5_amended [1] 0 1 (fun c => ⟨0, .ok c.length⟩)).2.1 (by decide) (by decide) 100

/-- C8: for pageSize ≥ 1, maxConcurrency ≥ 1 and fulfilling page reads,
`processPaginatedWithProgress` fires `onProgress` exactly once per page, i.e.
exactly `ceil(totalCount / pageSize)` times, each invocation carrying
`floor(offset / pageSize) + 1` as first argument and `totalPages` as second
(one invocation per page number, in settle order within a wave); the running
records counter is incremented by each completed page's result length exactly
once, so it ends at the total number of records returned; and the returned
value is the in-order flattening. -/
theorem claim_C8 {T E : Type} (totalCount pageSize maxConcurrency : Nat)
    (hps : 1 ≤ pageSize) (hmc : 1 ≤ maxConcurrency)
    (t : Nat → Nat → Nat) (rows : Nat → Nat → List T) :
    (processPaginatedWithProgress (E := E) totalCount pageSize
        (fun o l => ⟨t o l, .ok (rows o l)⟩) maxConcurrency).2.2.length =
      totalPages totalCount pageSize ∧
    ((processPaginatedWithProgress (E := E) totalCount pageSize
        (fun o l => ⟨t o l, .ok (rows o l)⟩) maxConcurrency).2.2.map
          fun ev => (ev.currentPage, ev.totalPages)).Perm
      ((List.range (totalPages totalCount pageSize)).map fun p =>
        (p + 1, totalPages totalCount pageSize)) ∧
    (processPaginatedWithProgress (E := E) totalCount pageSize
        (fun o l => ⟨t o l, .ok (rows o l)⟩) maxConcurrency).2.1 =
      ((pageSpecs totalCount pageSize).map fun sp => (rows sp.1 sp.2).length).sum ∧
    (processPaginatedWithProgress (E := E) totalCount pageSize
        (fun o l => ⟨t o l, .ok (rows o l)⟩) maxConcurrency).1 =
      .ok ((pageSpecs totalCount pageSize).map fun sp => rows sp.1 sp.2).flatten := by
  obtain ⟨h1, h2, h3, h4⟩ := progressGo_ok (E := E) pageSize (totalPages totalCount pageSize)
    t rows maxConcurrency hmc (pageSpecs totalCount pageSize).length
    (pageSpecs totalCount pageSize) 0 le_rfl
  have hmaps : ((pageSpecs totalCount pageSize).map
        fun sp => (sp.1 / pageSize + 1, totalPages totalCount pageSize)) =
      (List.range (totalPages totalCount pageSize)).map
        fun p => (p + 1, totalPages totalCount pageSize) := by
    unfold pageSpecs
    rw [List.map_map]
    refine List.map_congr_left ?_
    intro p hp
    simp only [Function.comp]
    rw [Nat.mul_div_cancel _ (show 0 < pageSize by omega)]
  unfold processPaginatedWithProgress
  refine ⟨?_, ?_, ?_, h1⟩
  · rw [h3]
    simp [pageSpecs]
  · exact h4.trans (by rw [hmaps])
  · rw [h2, Nat.zero_add]

/-- C8 witness: totalCount 10, pageSize 3, maxConcurrency 2, reads settling in
reverse order: 4 progress events are fired and the counter ends at 10. -/
theorem claim_C8_witness :
    (processPaginatedWithProgress (E := String) 10 3
        (fun o l => ⟨100 - o, .ok (List.replicate l o)⟩) 2).2.2.length = 4 ∧
      (processPaginatedWithProgress (E := String) 10 3
          (fun o l => ⟨100 - o, .ok (List.replicate l o)⟩) 2).2.1 = 10 ∧
      ((processPaginatedWithProgress (E := String) 10 3
          (fun o l => ⟨100 - o, .ok (List.replicate l o)⟩) 2).2.2.map
            fun ev => (ev.currentPage, ev.totalPages)).Perm
        [(1, 4), (2, 4), (3, 4), (4, 4)] := by
  obtain ⟨h1, h2, h3, -⟩ := claim_C8 (E := String) 10 3 2 (by decide) (by decide)
    (fun o _ => 100 - o) (fun o l => List.replicate l o)
  have heq : (List.range (totalPages 10 3)).map (fun p => (p + 1, totalPages 10 3)) =
      [(1, 4), (2, 4), (3, 4), (4, 4)] := by decide
  exact ⟨h1.trans (by decide), h3.trans (by decide), heq ▸ h2⟩

/-- C7 counterexample: source list `[0]`, target list `[0]`, identity numeric
keys.  The key "0" is present in the source lookup and maps to the source item
0, yet `compareListsByKey` classifies the target item as notFound, because the
code tests truthiness of the looked-up value (`if (sourceItem)`) and 0 is
falsy — the claim predicts `found = [0]`, `notFound = []`. -/
theorem claim_C7_counterexample :
    jsMapGet (([0] : List Int).map fun i => (JsKey.toJsString (JsKey.num i), i)) "0" =
        some 0 ∧
      compareListsByKey ([0] : List Int) ([0] : List Int) JsKey.num JsKey.num intTruthy
        (none : Option (Int → Int → Int)) id = ([], [0]) := by
  constructor
  · decide
  · decide

/-- C7 amended: the lookup is last-write-wins over the string-coerced source
keys in source order; each target item whose key maps to a truthy source item
contributes `transformFound(sourceItem, targetItem)` (or the source item
itself without a transform) to `found`; every other target item — key absent
or matched source item falsy — is appended unchanged to `notFound`; both
outputs preserve targetList traversal order. -/
theorem claim_C7_amended {T U R : Type} (sourceList : List T) (targetList : List U)
    (sourceKeySelector : T → JsKey) (targetKeySelector : U → JsKey)
    (truthy : T → Bool) (transformFound : Option (T → U → R)) (idCast : T → R) :
    (∀ k : String,
      jsMapGet (sourceList.map fun item => (JsKey.toJsString (sourceKeySelector item), item)) k =
        sourceList.reverse.find? fun item => JsKey.toJsString (sourceKeySelector item) == k) ∧
    (compareListsByKey sourceList targetList sourceKeySelector targetKeySelector truthy
        transformFound idCast).1 =
      targetList.filterMap (fun u =>
        match jsMapGet (sourceList.map fun item =>
            (JsKey.toJsString (sourceKeySelector item), item))
          (JsKey.toJsString (targetKeySelector u)) with
        | some s => if truthy s then some (foundEmit transformFound idCast s u) else none
        | none => none) ∧
    (compareListsByKey sourceList targetList sourceKeySelector targetKeySelector truthy
        transformFound idCast).2 =
      targetList.filter (fun u =>
        match jsMapGet (sourceList.map fun item =>
            (JsKey.toJsString (sourceKeySelector item), item))
          (JsKey.toJsString (targetKeySelector u)) with
        | some s => !truthy s
        | none => true) := by
  refine ⟨fun k => jsMapGet_map_key _ sourceList k, ?_, ?_⟩
  · rw [compareListsByKey, compareLoop_spec]
  · rw [compareListsByKey, compareLoop_spec]

/-- C10: classification in `compareListsByKey` follows the truthiness of the
looked-up source value, not key presence: a target item whose key maps to a
falsy source item lands in notFound even though the key is present, and every
`found` entry arises from a target item whose matched source item is truthy. -/
theorem claim_C10 {T U R : Type} (sourceList : List T) (targetList : List U)
    (sourceKeySelector : T → JsKey) (targetKeySelector : U → JsKey)
    (truthy : T → Bool) (transformFound : Option (T → U → R)) (idCast : T → R) :
    (∀ u ∈ targetList, ∀ s,
      jsMapGet (sourceList.map fun item => (JsKey.toJsString (sourceKeySelector item), item))
          (JsKey.toJsString (targetKeySelector u)) = some s →
      truthy s = false →
      u ∈ (compareListsByKey sourceList targetList sourceKeySelector targetKeySelector
        truthy transformFound idCast).2) ∧
    ∀ r ∈ (compareListsByKey sourceList targetList sourceKeySelector targetKeySelector
        truthy transformFound idCast).1, ∃ u ∈ targetList, ∃ s,
      jsMapGet (sourceList.map fun item => (JsKey.toJsString (sourceKeySelector item), item))
          (JsKey.toJsString (targetKeySelector u)) = some s ∧
        truthy s = true ∧ r = foundEmit transformFound idCast s u := by
  constructor
  · intro u hu s hget ht
    rw [compareListsByKey, compareLoop_spec]
    rw [List.mem_filter]
    refine ⟨hu, ?_⟩
    rw [hget]
    simp [ht]
  · intro r hr
    rw [compareListsByKey, compareLoop_spec] at hr
    rw [List.mem_filterMap] at hr
    obtain ⟨u, hu, hfm⟩ := hr
    rcases hget : jsMapGet (sourceList.map fun item =>
        (JsKey.toJsString (sourceKeySelector item), item))
        (JsKey.toJsString (targetKeySelector u)) with - | s
    · rw [hget] at hfm
      simp at hfm
    · by_cases ht : truthy s
      · simp only [hget, ht, if_true, Option.some.injEq] at hfm
        exact ⟨u, hu, s, hget, ht, hfm.symm⟩
      · simp [hget, ht] at hfm

/-- C10 witness: the target item 0 matches the falsy source item 0 and lands
in notFound. -/
theorem claim_C10_witness :
    (0 : Int) ∈ (compareListsByKey ([0] : List Int) ([0] : List Int) JsKey.num JsKey.num
      intTruthy (none : Option (Int → Int → Int)) id).2 :=
  (claim_C10 [0] [0] JsKey.num JsKey.num intTruthy none id).1 0 (by decide) 0
    (by decide) (by decide)

/-- C9 counterexample: `page = 1/2` passes `PaginationRequestSchema`
validation although it is not an integer — the schema uses `z.number().min(0)`
without an integrality check, so the claim's "exactly when page is an
integer ≥ 0" is false. -/
theorem claim_C9_counterexample :
    (∃ req, PaginationRequestSchema.parse ⟨some (1 / 2 : ℚ), none⟩ = .ok req) ∧
      ¬ ∃ n : ℤ, (1 / 2 : ℚ) = (n : ℚ) := by
  constructor
  · refine ⟨⟨1 / 2, 10⟩, ?_⟩
    simp only [PaginationRequestSchema.parse, Option.getD_some, Option.getD_none]
    norm_num
  · rintro ⟨n, hn⟩
    have h0 : (0 : ℚ) < 1 / 2 := by norm_num
    have h1 : (1 / 2 : ℚ) < 1 := by norm_num
    rw [hn] at h0 h1
    have h0' : (0 : ℤ) < n := by exact_mod_cast h0
    have h1' : n < 1 := by exact_mod_cast h1
    omega

/-- C9 amended: a value passes `PaginationRequestSchema` validation exactly
when its page is a number ≥ 0 and its size is a number in [1, 100]
(integrality is NOT required), with page defaulting to 0 and size to 10 when
absent; a value outside these bounds is rejected with schema issues that name
exactly the violated fields and constraints. -/
theorem claim_C9_amended (input : PaginationInput) :
    (0 ≤ input.page.getD 0 ∧ 1 ≤ input.size.getD 10 ∧ input.size.getD 10 ≤ 100 →
        PaginationRequestSchema.parse input =
          .ok ⟨input.page.getD 0, input.size.getD 10⟩) ∧
      (¬(0 ≤ input.page.getD 0 ∧ 1 ≤ input.size.getD 10 ∧ input.size.getD 10 ≤ 100) →
        ∀ req, PaginationRequestSchema.parse input ≠ .ok req) ∧
      (∀ issues, PaginationRequestSchema.parse input = .error issues →
        ((input.page.getD 0 < 0 ↔ ZodCheckFailure.tooSmall "page" 0 ∈ issues) ∧
          (input.size.getD 10 < 1 ↔ ZodCheckFailure.tooSmall "size" 1 ∈ issues) ∧
          (100 < input.size.getD 10 ↔ ZodCheckFailure.tooBig "size" 100 ∈ issues))) ∧
      PaginationRequestSchema.parse ⟨none, none⟩ = .ok ⟨0, 10⟩ := by
  refine ⟨?_, ?_, ?_, by decide⟩
  · rintro ⟨h1, h2, h3⟩
    simp only [PaginationRequestSchema.parse]
    rw [if_neg (not_lt.mpr h1), if_neg (not_lt.mpr h2), if_neg (not_lt.mpr h3)]
    simp
  · intro hnot req hok
    by_cases hp : input.page.getD 0 < 0
    · simp [PaginationRequestSchema.parse, hp] at hok
    · by_cases hs1 : input.size.getD 10 < 1
      · simp [PaginationRequestSchema.parse, hs1] at hok
      · by_cases hs2 : (100 : ℚ) < input.size.getD 10
        · simp [PaginationRequestSchema.parse, hp, hs1, hs2] at hok
        · exact hnot ⟨not_lt.mp hp, not_lt.mp hs1, not_lt.mp hs2⟩
  · intro issues hiss
    by_cases hp : input.page.getD 0 < 0 <;> by_cases hs1 : input.size.getD 10 < 1 <;>
      by_cases hs2 : (100 : ℚ) < input.size.getD 10 <;>
      simp only [PaginationRequestSchema.parse, hp, hs1, hs2, if_true, if_false,
        List.nil_append, List.append_nil] at hiss
    all_goals simp at hiss
    all_goals (subst hiss; refine ⟨?_, ?_, ?_⟩ <;> simp [hp, hs1, hs2])

/-- C9 witness: `page = -1`, `size = 200` is rejected with one issue per
violated bound, naming the field and the constraint. -/
theorem claim_C9_witness :
    PaginationRequestSchema.parse ⟨some (-1 : ℚ), some 200⟩ =
        .error [ZodCheckFailure.tooSmall "page" 0, ZodCheckFailure.tooBig "size" 100] ∧
      ((-1 : ℚ) < 0 ↔ ZodCheckFailure.tooSmall "page" 0 ∈
        [ZodCheckFailure.tooSmall "page" 0, ZodCheckFailure.tooBig "size" 100]) := by
  have hparse : PaginationRequestSchema.parse ⟨some (-1 : ℚ), some 200⟩ =
      .error [ZodCheckFailure.tooSmall "page" 0, ZodCheckFailure.tooBig "size" 100] := by
    decide
  exact ⟨hparse, ((claim_C9_amended ⟨some (-1 : ℚ), some 200⟩).2.2.1 _ hparse).1⟩

/-- C7 witness: source `[(1,"a"), (2,"b")]` keyed by first component, target
`[2, 3]`: id 2 is found (truthy object), id 3 is not. -/
theorem claim_C7_witness :
    compareListsByKey [(1, "a"), (2, "b")] ([2, 3] : List Int)
        (fun s : Int × String => JsKey.num s.1) JsKey.num (fun _ => true)
        (none : Option (Int × String → Int → Int × String)) id =
      ([(2, "b")], [3]) := by
  obtain ⟨-, h2, h3⟩ := claim_C7_amended [(1, "a"), (2, "b")] ([2, 3] : List Int)
    (fun s : Int × String => JsKey.num s.1) JsKey.num (fun _ => true)
    (none : Option (Int × String → Int → Int × String)) id
  exact Prod.ext (h2.trans (by decide)) (h3.trans (by decide))

section AgreementLemmas

variable {T E R : Type}

/-- `slice(i, i + k)` at natural indices is take-after-drop. -/
theorem jsSlice_natCast {A : Type} (l : List A) (i k : Nat) :
    jsSlice l (i : Int) ((i : Int) + (k : Int)) = (l.drop i).take k := by
  simp only [jsSlice]
  rw [if_neg (not_lt.mpr (Int.natCast_nonneg i)),
    if_neg (not_lt.mpr (by positivity : (0 : Int) ≤ (i : Int) + (k : Int)))]
  rw [← Nat.cast_add, ← Nat.cast_min, ← Nat.cast_min, Int.toNat_natCast, Int.toNat_natCast]
  rw [List.drop_take]
  rcases le_or_lt l.length i with hle | hlt
  · rw [min_eq_right hle, List.drop_length, List.drop_eq_nil_of_le hle]
    simp
  · rw [min_eq_left (le_of_lt hlt)]
    rcases le_or_lt (i + k) l.length with hle2 | hlt2
    · rw [min_eq_left hle2, Nat.add_sub_cancel_left]
    · rw [min_eq_right (le_of_lt hlt2)]
      have hdl : (l.drop i).length = l.length - i := List.length_drop i l
      rw [List.take_of_length_le (by omega), List.take_of_length_le (by omega)]

/-- The chunking recursion does not depend on the exact fuel, as long as there
is enough of it. -/
theorem chunkArrayGo_fuel_irrel (cs : Nat) (hcs : 1 ≤ cs) :
    ∀ f f' (l : List T), l.length ≤ f → l.length ≤ f' →
      chunkArrayGo cs f l = chunkArrayGo cs f' l := by
  intro f
  induction f with
  | zero =>
    intro f' l h _
    rw [Nat.le_zero, List.length_eq_zero] at h
    subst h
    cases f' <;> rfl
  | succ f ih =>
    intro f' l h h'
    match l with
    | [] => cases f' <;> rfl
    | a :: rest =>
      match f' with
      | 0 => simp at h'
      | f' + 1 =>
        simp only [List.length_cons] at h h'
        simp only [chunkArrayGo]
        rw [ih f' ((a :: rest).drop cs)
          (by simp only [List.length_drop, List.length_cons]; omega)
          (by simp only [List.length_drop, List.length_cons]; omega)]

/-- One unfolding of `chunkArray` on a nonempty list. -/
theorem chunkArray_cons_eq (l : List T) (cs : Nat) (hcs : 1 ≤ cs) (hne : l ≠ []) :
    chunkArray l cs = l.take cs :: chunkArray (l.drop cs) cs := by
  obtain ⟨a, rest, rfl⟩ := List.exists_cons_of_ne_nil hne
  show chunkArrayGo cs (rest.length + 1) (a :: rest) = _
  rw [chunkArrayGo]
  congr 1
  exact chunkArrayGo_fuel_irrel cs hcs rest.length ((a :: rest).drop cs).length
    ((a :: rest).drop cs) (by simp only [List.length_drop, List.length_cons]; omega) le_rfl

/-- The wave recursion does not depend on the exact fuel, as long as there is
enough of it. -/
theorem chunksGo_fuel_irrel (p : List T → AsyncResult E R) (mc : Nat) (hmc : 1 ≤ mc) :
    ∀ f f' (l : List (List T)), l.length ≤ f → l.length ≤ f' →
      chunksGo p mc f l = chunksGo p mc f' l := by
  intro f
  induction f with
  | zero =>
    intro f' l h _
    rw [Nat.le_zero, List.length_eq_zero] at h
    subst h
    cases f' <;> rfl
  | succ f ih =>
    intro f' l h h'
    match l with
    | [] => cases f' <;> rfl
    | c :: rest =>
      match f' with
      | 0 => simp at h'
      | f' + 1 =>
        simp only [List.length_cons] at h h'
        simp only [chunksGo]
        rw [ih f' ((c :: rest).drop mc)
          (by simp only [List.length_drop, List.length_cons]; omega)
          (by simp only [List.length_drop, List.length_cons]; omega)]

/-- One unfolding of the wave loop on a nonempty chunk list. -/
theorem chunksGo_cons_eq (p : List T → AsyncResult E R) (mc : Nat) (hmc : 1 ≤ mc)
    (l : List (List T)) (hne : l ≠ []) :
    chunksGo p mc l.length l =
      match promiseAll ((l.take mc).map p) with
      | .error e => .error e
      | .ok batchResults =>
        match chunksGo p mc (l.drop mc).length (l.drop mc) with
        | .error e => .error e
        | .ok restResults => .ok (batchResults ++ restResults) := by
  obtain ⟨c, rest, rfl⟩ := List.exists_cons_of_ne_nil hne
  show chunksGo p mc (rest.length + 1) (c :: rest) = _
  rw [chunksGo]
  rw [chunksGo_fuel_irrel p mc hmc rest.length ((c :: rest).drop mc).length
    ((c :: rest).drop mc) (by simp only [List.length_drop, List.length_cons]; omega) le_rfl]

/-- A chunking loop that finished within some fuel finishes identically with
more fuel. -/
theorem chunkArrayLoopJS_mono (array : List T) (cs : Int) :
    ∀ fuel fuel' (i : Int) (acc r : List (List T)), fuel ≤ fuel' →
      chunkArrayLoopJS array cs fuel i acc = some r →
      chunkArrayLoopJS array cs fuel' i acc = some r := by
  intro fuel
  induction fuel with
  | zero =>
    intro fuel' i acc r _ h
    exact absurd h (by simp [chunkArrayLoopJS])
  | succ fuel ih =>
    intro fuel' i acc r hle h
    match fuel', hle with
    | fuel' + 1, hle =>
      rw [chunkArrayLoopJS] at h ⊢
      split_ifs at h ⊢ with hc
      · exact ih fuel' _ _ r (by omega) h
      · exact h

/-- A wave loop that finished within some fuel finishes identically with more
fuel. -/
theorem wavesLoopJS_mono (chunks : List (List T)) (p : List T → AsyncResult E R) (mc : Int) :
    ∀ fuel fuel' (i : Int) (acc : List R) (r : Except E (List R)), fuel ≤ fuel' →
      wavesLoopJS chunks p mc fuel i acc = some r →
      wavesLoopJS chunks p mc fuel' i acc = some r := by
  intro fuel
  induction fuel with
  | zero =>
    intro fuel' i acc r _ h
    exact absurd h (by simp [wavesLoopJS])
  | succ fuel ih =>
    intro fuel' i acc r hle h
    match fuel', hle with
    | fuel' + 1, hle =>
      rw [wavesLoopJS] at h ⊢
      split_ifs at h ⊢ with hc
      · rcases hpa : promiseAll ((jsSlice chunks i (i + mc)).map p) with e | br
        · rw [hpa] at h
          exact h
        · rw [hpa] at h
          exact ih fuel' (i + mc) (acc ++ br) r (by omega) h
      · exact h

end AgreementLemmas

section AgreementTheorems

variable {T E R : Type}

/-- For `chunkSize ≥ 1`, the literal chunking loop terminates and agrees with
`chunkArray` on the remaining suffix, whatever was accumulated so far. -/
theorem chunkArrayLoopJS_agrees (array : List T) (cs : Nat) (hcs : 1 ≤ cs) :
    ∀ (d i : Nat) (acc : List (List T)), array.length - i ≤ d →
      ∃ fuel, chunkArrayLoopJS array (cs : Int) fuel (i : Int) acc =
        some (acc ++ chunkArray (array.drop i) cs) := by
  intro d
  induction d with
  | zero =>
    intro i acc hd
    have hge : array.length ≤ i := by omega
    refine ⟨1, ?_⟩
    rw [chunkArrayLoopJS, if_neg (not_lt.mpr (by exact_mod_cast hge))]
    rw [List.drop_eq_nil_of_le hge]
    simp [chunkArray, chunkArrayGo]
  | succ d ih =>
    intro i acc hd
    rcases le_or_lt array.length i with hge | hlt
    · refine ⟨1, ?_⟩
      rw [chunkArrayLoopJS, if_neg (not_lt.mpr (by exact_mod_cast hge))]
      rw [List.drop_eq_nil_of_le hge]
      simp [chunkArray, chunkArrayGo]
    · obtain ⟨fuel, hfuel⟩ := ih (i + cs) (acc ++ [(array.drop i).take cs]) (by omega)
      refine ⟨fuel + 1, ?_⟩
      rw [chunkArrayLoopJS, if_pos (by exact_mod_cast hlt)]
      rw [jsSlice_natCast array i cs, ← Nat.cast_add, hfuel]
      rw [chunkArray_cons_eq (array.drop i) cs hcs
        (List.ne_nil_of_length_pos (by rw [List.length_drop]; omega))]
      rw [List.drop_drop]
      simp

/-- For `chunkSize ≥ 1`, the literal `chunkArray` loop terminates with the
value of the structural `chunkArray`. -/
theorem chunkArrayJS_agrees (array : List T) (cs : Nat) (hcs : 1 ≤ cs) :
    ∃ fuel, chunkArrayJS fuel array (cs : Int) = some (chunkArray array cs) := by
  obtain ⟨fuel, h⟩ := chunkArrayLoopJS_agrees array cs hcs array.length 0 [] (by omega)
  refine ⟨fuel, ?_⟩
  unfold chunkArrayJS
  simpa using h

/-- For `maxConcurrency ≥ 1`, the literal wave loop terminates and agrees with
`chunksGo` on the remaining suffix, prefixed by what was accumulated so far. -/
theorem wavesLoopJS_agrees (chunks : List (List T)) (p : List T → AsyncResult E R)
    (mc : Nat) (hmc : 1 ≤ mc) :
    ∀ (d i : Nat) (acc : List R), chunks.length - i ≤ d →
      ∃ fuel, wavesLoopJS chunks p (mc : Int) fuel (i : Int) acc =
        some ((chunksGo p mc (chunks.drop i).length (chunks.drop i)).map
          fun rs => acc ++ rs) := by
  intro d
  induction d with
  | zero =>
    intro i acc hd
    have hge : chunks.length ≤ i := by omega
    refine ⟨1, ?_⟩
    rw [wavesLoopJS, if_neg (not_lt.mpr (by exact_mod_cast hge))]
    rw [List.drop_eq_nil_of_le hge]
    simp [chunksGo, Except.map]
  | succ d ih =>
    intro i acc hd
    rcases le_or_lt chunks.length i with hge | hlt
    · refine ⟨1, ?_⟩
      rw [wavesLoopJS, if_neg (not_lt.mpr (by exact_mod_cast hge))]
      rw [List.drop_eq_nil_of_le hge]
      simp [chunksGo, Except.map]
    · have hne : chunks.drop i ≠ [] :=
        List.ne_nil_of_length_pos (by rw [List.length_drop]; omega)
      have hstep := chunksGo_cons_eq p mc hmc (chunks.drop i) hne
      rcases hpa : promiseAll (((chunks.drop i).take mc).map p) with e | br
      · refine ⟨1, ?_⟩
        rw [wavesLoopJS, if_pos (by exact_mod_cast hlt)]
        rw [jsSlice_natCast chunks i mc, hpa, hstep, hpa]
        rfl
      · obtain ⟨fuel, hfuel⟩ := ih (i + mc) (acc ++ br) (by omega)
        refine ⟨fuel + 1, ?_⟩
        rw [wavesLoopJS, if_pos (by exact_mod_cast hlt)]
        rw [jsSlice_natCast chunks i mc, hpa]
        show wavesLoopJS chunks p (mc : Int) fuel ((i : Int) + (mc : Int)) (acc ++ br) = _
        rw [← Nat.cast_add, hfuel, hstep, hpa, List.drop_drop]
        rcases hgo : chunksGo p mc (chunks.drop (i + mc)).length (chunks.drop (i + mc))
          with e | rr <;>
          simp [Except.map, List.append_assoc]

/-- For `chunkSize ≥ 1` and `maxConcurrency ≥ 1`, the literal JavaScript
translation of `processChunksInParallel` terminates with the value of the
structural translation: the two embeddings agree on the whole claimed
domain. -/
theorem processChunksInParallelJS_agrees (items : List T) (cs mc : Nat)
    (hcs : 1 ≤ cs) (hmc : 1 ≤ mc) (p : List T → AsyncResult E R) :
    ∃ fuel, processChunksInParallelJS fuel items (cs : Int) p (mc : Int) =
      some (processChunksInParallel items cs p mc) := by
  obtain ⟨f1, h1⟩ := chunkArrayJS_agrees items cs hcs
  obtain ⟨f2, h2⟩ := wavesLoopJS_agrees (chunkArray items cs) p mc hmc
    (chunkArray items cs).length 0 [] (by omega)
  refine ⟨max f1 f2, ?_⟩
  unfold processChunksInParallelJS
  rw [show chunkArrayJS (max f1 f2) items (cs : Int) = some (chunkArray items cs) from
    chunkArrayLoopJS_mono items (cs : Int) f1 (max f1 f2) 0 [] _ (le_max_left f1 f2) h1]
  show wavesLoopJS (chunkArray items cs) p (mc : Int) (max f1 f2) 0 [] = _
  have h2' := wavesLoopJS_mono (chunkArray items cs) p (mc : Int) f2 (max f1 f2) 0 [] _
    (le_max_right f1 f2) h2
  rw [h2']
  simp only [List.drop_zero]
  unfold processChunksInParallel
  rcases hgo : chunksGo p mc (chunkArray items cs).length (chunkArray items cs)
    with e | rs <;>
    simp [Except.map]

end AgreementTheorems
